import Mathlib

/-!
Verification of the partially-stateful dataflow engine.

This file gives a shallow embedding, in Lean 4, of the parts of the
repository that the verified properties are about:

- the per-node materialization step (src/src/flow/node/process.rs),
- the reader / egress arms of the domain processor
  (src/src/flow/domain/single.rs),
- the two-way join operator (src/src/ops/join.rs),
- the group-concat grouped operator
  (src/noria/server/dataflow/src/ops/grouped/conkitten.rs),
- column provenance tracing (src/noria/server/src/controller/keys.rs),
- the framed TCP channel (src/channel/src/tcp.rs).

Machine integers are modelled as Nat / Int, fallible code returns Option or
Except, and mutation is modelled by explicit state passing.
-/

set_option maxHeartbeats 1000000

namespace Readyset

/-! ## Core data model: values, rows, records -/

/-- Embedding of the value type (query::DataType in the old core,
common::DataType in the newer tree).  Only the variants the verified
operations inspect are distinguished; the text variants are kept separate
because group-concat treats Text and TinyText alike but other variants
differently. -/
inductive DataType
  | none
  | int (n : Int)
  | text (s : String)
  | tinyText (s : String)
deriving DecidableEq

/-- A row is an ordered sequence of values. -/
abbrev Row := List DataType

/-- Embedding of Record: a row annotated with a sign.  DeleteRequest exists
in the source but every embedded code path marks it unreachable. -/
inductive Record
  | positive (row : Row)
  | negative (row : Row)
  | deleteRequest (row : Row)
deriving DecidableEq

/-- The row underlying a record (the Deref impl on Record). -/
def Record.row : Record → Row
  | .positive r => r
  | .negative r => r
  | .deleteRequest r => r

/-- Embedding of Miss { node, key } produced by materialization. -/
structure Miss where
  node : Nat
  key : List DataType
deriving DecidableEq

/-! ## Per-node state

Modelled from the spec: the State type itself (keyed row storage with
partial-hole tracking) is not among the provided source files; only its
callers in flow/node/process.rs and flow/domain/single.rs are.  Following
spec section 4.2, a state carries a set of declared indices (column
tuples), a full/partial flag, and, when partial, the set of filled
(index, key) pairs; any key not in that set is a hole.  Rows are kept
here as a single flat multiset: the per-index buckets of the real store
always hold the same multiset of rows restricted to filled keys, and the
properties proved below only observe the row multiset and the hole
structure. -/

/-- The key of a row under a declared index (one value per index column). -/
def keyOf (cols : List Nat) (r : Row) : List DataType :=
  cols.map (fun c => r.getD c DataType.none)

/-- Modelled from the spec: per-node state (spec section 4.2). -/
structure State where
  indices : List (List Nat)
  isPartial : Bool
  filled : List (List Nat × List DataType)
  rows : List Row
deriving DecidableEq

/-- Modelled from the spec: hole detection during a write.  Returns the
columns of some declared index under which the key of the row is a hole
(spec: the write is a miss at this node if any declared index has that
key as a hole). -/
def State.hitsHole (s : State) (r : Row) : Option (List Nat) :=
  s.indices.find? (fun cols => !(s.filled.contains (cols, keyOf cols r)))

/-- Modelled from the spec: insert(row, tag?).  If partial and the tag is
absent (regular write), drop silently for keys that are holes in any
declared index; otherwise add the row. -/
def State.insert (s : State) (r : Row) (tag : Option Nat) : State :=
  if s.isPartial && tag.isNone && (s.hitsHole r).isSome then s
  else { s with rows := r :: s.rows }

/-- Modelled from the spec: remove one occurrence of the row. -/
def State.remove (s : State) (r : Row) : State :=
  { s with rows := s.rows.erase r }

@[simp] theorem State.insert_indices (s : State) (r : Row) (tag : Option Nat) :
    (s.insert r tag).indices = s.indices := by
  unfold State.insert; split <;> rfl

@[simp] theorem State.insert_filled (s : State) (r : Row) (tag : Option Nat) :
    (s.insert r tag).filled = s.filled := by
  unfold State.insert; split <;> rfl

@[simp] theorem State.insert_isPartial (s : State) (r : Row) (tag : Option Nat) :
    (s.insert r tag).isPartial = s.isPartial := by
  unfold State.insert; split <;> rfl

@[simp] theorem State.remove_indices (s : State) (r : Row) :
    (s.remove r).indices = s.indices := rfl

@[simp] theorem State.remove_filled (s : State) (r : Row) :
    (s.remove r).filled = s.filled := rfl

@[simp] theorem State.remove_isPartial (s : State) (r : Row) :
    (s.remove r).isPartial = s.isPartial := rfl

/-! ## Materialization (src/src/flow/node/process.rs, fn materialize)

The source mutates the record batch in place with retain and returns the
misses; the embedding returns (retained records, new state, misses).
A DeleteRequest record hits an unreachable! in the source, so the
embedding returns Option.none there. -/

/-- One record applied to state: the match inside materialize. -/
def applyRecord (tagP : Option Nat) (s : State) : Record → Option State
  | .positive r => some (s.insert r tagP)
  | .negative r => some (s.remove r)
  | .deleteRequest _ => Option.none

/-- All records of a batch applied in order (the non-partial arm of
materialize, and the state effect of the partial arm on retained
records). -/
def applyRecords (tagP : Option Nat) : State → List Record → Option State
  | s, [] => some s
  | s, r :: rest => (applyRecord tagP s r).bind (fun s1 => applyRecords tagP s1 rest)

/-- The retain loop of the partial arm of materialize: for each record, if
its key is a hole under some declared index, drop the record and push a
Miss { node, key }; otherwise apply it to state and keep it. -/
def materializeGo (node : Nat) (tagP : Option Nat) :
    State → List Record → Option (List Record × State × List Miss)
  | s, [] => some ([], s, [])
  | s, r :: rest =>
    match s.hitsHole r.row with
    | some cols =>
      (materializeGo node tagP s rest).map (fun out =>
        (out.1, out.2.1,
          { node := node, key := cols.map (fun c => r.row.getD c DataType.none) } :: out.2.2))
    | Option.none =>
      (applyRecord tagP s r).bind (fun s1 =>
        (materializeGo node tagP s1 rest).map (fun out => (r :: out.1, out.2.1, out.2.2)))

/-- Embedding of fn materialize (src/src/flow/node/process.rs lines
135-181).  With no state, nothing changes.  With partial state, the
retain loop above runs; with full state, every record is applied and no
misses arise. -/
def materialize (rs : List Record) (node : Nat) (tagP : Option Nat) :
    Option State → Option (List Record × Option State × List Miss)
  | Option.none => some (rs, Option.none, [])
  | some st =>
    if st.isPartial then
      (materializeGo node tagP st rs).map (fun out => (out.1, some out.2.1, out.2.2))
    else
      (applyRecords tagP st rs).map (fun s1 => (rs, some s1, []))

theorem applyRecord_hole_frame {tagP : Option Nat} {s s1 : State} {r : Record}
    (h : applyRecord tagP s r = some s1) :
    s1.indices = s.indices ∧ s1.filled = s.filled ∧ s1.isPartial = s.isPartial := by
  cases r with
  | positive row =>
    simp only [applyRecord, Option.some.injEq] at h
    subst h; simp
  | negative row =>
    simp only [applyRecord, Option.some.injEq] at h
    subst h; simp
  | deleteRequest row => simp [applyRecord] at h

theorem applyRecord_hitsHole {tagP : Option Nat} {s s1 : State} {r : Record}
    (h : applyRecord tagP s r = some s1) : s1.hitsHole = s.hitsHole := by
  obtain ⟨h1, h2, _⟩ := applyRecord_hole_frame h
  funext row
  simp [State.hitsHole, h1, h2]

/-- The retain loop, described against the initial state: the retained
records are exactly those whose key is filled under every declared index,
the misses list one entry per dropped record naming this node and the
record's key under the offending index, and the resulting state is the
initial state with exactly the retained records applied. -/
theorem materializeGo_spec (node : Nat) (tagP : Option Nat) :
    ∀ (rs : List Record) (s : State) (out : List Record × State × List Miss),
    materializeGo node tagP s rs = some out →
    out.1 = rs.filter (fun r => (s.hitsHole r.row).isNone) ∧
    out.2.2 = rs.filterMap (fun r => (s.hitsHole r.row).map (fun cols =>
      { node := node, key := cols.map (fun c => r.row.getD c DataType.none) })) ∧
    applyRecords tagP s (rs.filter (fun r => (s.hitsHole r.row).isNone)) = some out.2.1 := by
  intro rs
  induction rs with
  | nil =>
    intro s out h
    simp only [materializeGo, Option.some.injEq] at h
    subst h
    simp [applyRecords]
  | cons r rest ih =>
    intro s out h
    simp only [materializeGo] at h
    cases hh : s.hitsHole r.row with
    | some cols =>
      rw [hh] at h
      cases hrest : materializeGo node tagP s rest with
      | none => rw [hrest] at h; simp at h
      | some out1 =>
        rw [hrest] at h
        simp only [Option.map_some', Option.some.injEq] at h
        obtain ⟨h1, h2, h3⟩ := ih s out1 hrest
        subst h
        refine ⟨?_, ?_, ?_⟩
        · simp [List.filter_cons, hh, h1]
        · simp [List.filterMap_cons, hh, h2]
        · simpa [List.filter_cons, hh] using h3
    | none =>
      rw [hh] at h
      cases ha : applyRecord tagP s r with
      | none => rw [ha] at h; simp at h
      | some s1 =>
        rw [ha] at h
        simp only [Option.some_bind] at h
        cases hrest : materializeGo node tagP s1 rest with
        | none => rw [hrest] at h; simp at h
        | some out1 =>
          rw [hrest] at h
          simp only [Option.map_some', Option.some.injEq] at h
          obtain ⟨h1, h2, h3⟩ := ih s1 out1 hrest
          subst h
          have hhh := applyRecord_hitsHole ha
          refine ⟨?_, ?_, ?_⟩
          · simp [List.filter_cons, hh, h1, hhh]
          · simp [List.filterMap_cons, hh, h2, hhh]
          · simp only [List.filter_cons, hh, Option.isNone_none, if_pos]
            simp only [applyRecords, ha, Option.some_bind]
            rw [← hhh]
            simpa using h3

/-- C1: for a node with partial materialized state, a regular batch never
populates state for a hole: each record whose key is a hole under some
declared index is dropped (not written to state, not among the retained
records that propagate downstream) and produces a Miss naming this node
and that key; records whose keys are filled are retained and applied
normally to state. -/
theorem materialize_partial_drops_holes
    (s : State) (rs : List Record) (node : Nat) (tagP : Option Nat)
    (out : List Record × Option State × List Miss)
    (hp : s.isPartial = true)
    (h : materialize rs node tagP (some s) = some out) :
    out.1 = rs.filter (fun r => (s.hitsHole r.row).isNone) ∧
    out.2.2 = rs.filterMap (fun r => (s.hitsHole r.row).map (fun cols =>
      { node := node, key := cols.map (fun c => r.row.getD c DataType.none) })) ∧
    out.2.1 = (applyRecords tagP s (rs.filter (fun r => (s.hitsHole r.row).isNone))).map some := by
  simp only [materialize, hp, if_true] at h
  cases hgo : materializeGo node tagP s rs with
  | none => rw [hgo] at h; simp at h
  | some out1 =>
    rw [hgo] at h
    simp only [Option.map_some', Option.some.injEq] at h
    obtain ⟨h1, h2, h3⟩ := materializeGo_spec node tagP rs s out1 hgo
    subst h
    exact ⟨h1, h2, by simp [h3]⟩

/-- A concrete partial state for the C1 witness: one declared index on
column 0, key (int 1) filled, no rows yet. -/
def c1State : State :=
  { indices := [[0]], isPartial := true,
    filled := [([0], [DataType.int 1])], rows := [] }

/-- A concrete batch for the C1 witness: one filled-key record and one
hole-key record. -/
def c1Batch : List Record :=
  [Record.positive [DataType.int 1, DataType.text "a"],
   Record.positive [DataType.int 2, DataType.text "b"]]

/-- The output materialize produces on the C1 witness input. -/
def c1Out : List Record × Option State × List Miss :=
  ([Record.positive [DataType.int 1, DataType.text "a"]],
   some { indices := [[0]], isPartial := true,
          filled := [([0], [DataType.int 1])],
          rows := [[DataType.int 1, DataType.text "a"]] },
   [{ node := 7, key := [DataType.int 2] }])

/-- Witness for C1 at a concrete input: the hole-key record is dropped
with a miss, the filled-key record is applied. -/
theorem materialize_partial_drops_holes_witness :
    c1State.isPartial = true ∧
    materialize c1Batch 7 Option.none (some c1State) = some c1Out ∧
    (c1Out.1 = c1Batch.filter (fun r => (c1State.hitsHole r.row).isNone) ∧
     c1Out.2.2 = c1Batch.filterMap (fun r => (c1State.hitsHole r.row).map (fun cols =>
       { node := 7, key := cols.map (fun c => r.row.getD c DataType.none) })) ∧
     c1Out.2.1 = (applyRecords Option.none c1State
       (c1Batch.filter (fun r => (c1State.hitsHole r.row).isNone))).map some) :=
  ⟨rfl, by decide,
   materialize_partial_drops_holes c1State c1Batch 7 Option.none c1Out rfl (by decide)⟩

/-! ## Internal node processing (src/src/flow/node/process.rs, Node::process)

Only the Internal arm is embedded: it runs the ingredient, then
materializes the output into the node's own state only when the packet is
regular or the node holds no base table. -/

/-- Result of Ingredient::on_input_raw. -/
inductive RawProcessingResult
  | regular (results : List Record) (misses : List Miss)
  | replayPiece (rs : List Record)
  | captured

/-- An Internal node: whether its ingredient contains a base table
(get_base().is_some()), and the ingredient's on_input_raw behavior,
abstracted as a function of (from, data, replay context). -/
structure Internal where
  hasBase : Bool
  onInputRaw : Nat → List Record → Option (Nat × DataType) → RawProcessingResult

/-- The packet fields the Internal arm of Node::process reads: source link,
payload, replay tag, regularity, and the partial replay key (if any). -/
structure ProcPacket where
  src : Nat
  data : List Record
  tag : Option Nat
  isRegular : Bool
  forKey : Option DataType

/-- Embedding of the Internal arm of Node::process (src/src/flow/node/
process.rs lines 41-128).  The replay context requires keyed_by to be
present (asserted in the source); a Captured result replaces the packet
(returned here as Option.none in the packet position).  Materialization
into this node's state happens only if the packet is regular or the node
is not a base. -/
def processInternalCore (i : Internal) (addr : Nat) (m : ProcPacket)
    (st : Option State) (replay : Option (Nat × DataType)) :
    Option (Option ProcPacket × Option State × List Miss) :=
  match i.onInputRaw m.src m.data replay with
  | .captured => some (Option.none, st, [])
  | .regular results misses =>
    if m.isRegular || !i.hasBase then
      (materialize results addr m.tag st).map (fun out =>
        (some { m with data := out.1 }, out.2.1, misses ++ out.2.2))
    else
      some (some { m with data := results }, st, misses)
  | .replayPiece rs =>
    if m.isRegular || !i.hasBase then
      (materialize rs addr m.tag st).map (fun out =>
        (some { m with data := out.1 }, out.2.1, out.2.2))
    else
      some (some { m with data := rs }, st, [])

def processInternal (i : Internal) (addr : Nat) (keyedBy : Option Nat)
    (m : ProcPacket) (st : Option State) :
    Option (Option ProcPacket × Option State × List Miss) :=
  match m.forKey with
  | Option.none => processInternalCore i addr m st Option.none
  | some k =>
    match keyedBy with
    | Option.none => Option.none
    | some kb => processInternalCore i addr m st (some (kb, k))

/-- C10: when an Internal node containing a base table processes a replay
piece (a non-regular packet), its own materialized state is left
untouched, so replaying a base's data through the base itself never
duplicates its stored rows. -/
theorem processInternal_replay_at_base_frame
    (i : Internal) (addr : Nat) (keyedBy : Option Nat) (m : ProcPacket)
    (st : Option State) (out : Option ProcPacket × Option State × List Miss)
    (hreg : m.isRegular = false) (hbase : i.hasBase = true)
    (h : processInternal i addr keyedBy m st = some out) :
    out.2.1 = st := by
  have core : ∀ replay,
      processInternalCore i addr m st replay = some out → out.2.1 = st := by
    intro replay hcore
    unfold processInternalCore at hcore
    cases hoi : i.onInputRaw m.src m.data replay with
    | captured =>
      rw [hoi] at hcore
      simp only [Option.some.injEq] at hcore
      rw [← hcore]
    | regular results misses =>
      rw [hoi] at hcore
      simp only [hreg, hbase, Bool.false_or, Bool.not_true] at hcore
      rw [if_neg Bool.false_ne_true] at hcore
      simp only [Option.some.injEq] at hcore
      rw [← hcore]
    | replayPiece rs =>
      rw [hoi] at hcore
      simp only [hreg, hbase, Bool.false_or, Bool.not_true] at hcore
      rw [if_neg Bool.false_ne_true] at hcore
      simp only [Option.some.injEq] at hcore
      rw [← hcore]
  unfold processInternal at h
  cases hfk : m.forKey with
  | none =>
    rw [hfk] at h
    exact core Option.none h
  | some k =>
    rw [hfk] at h
    cases hkb : keyedBy with
    | none => rw [hkb] at h; simp at h
    | some kb =>
      rw [hkb] at h
      exact core (some (kb, k)) h

/-- Concrete base-holding internal node for the C10 witness: its
ingredient echoes its input. -/
def c10Node : Internal :=
  { hasBase := true, onInputRaw := fun _ d _ => .regular d [] }

/-- Concrete replay-piece packet for the C10 witness. -/
def c10Packet : ProcPacket :=
  { src := 0, data := [Record.positive [DataType.int 5]],
    tag := some 2, isRegular := false, forKey := some (DataType.int 5) }

/-- Concrete state for the C10 witness. -/
def c10St : Option State :=
  some { indices := [[0]], isPartial := false, filled := [],
         rows := [[DataType.int 5]] }

/-- Witness for C10: processing the replay piece at the base-holding node
leaves the state exactly as it was. -/
theorem processInternal_replay_at_base_frame_witness :
    c10Packet.isRegular = false ∧ c10Node.hasBase = true ∧
    processInternal c10Node 3 (some 0) c10Packet c10St =
      some (some c10Packet, c10St, []) ∧
    ((some c10Packet, c10St, ([] : List Miss)) :
      Option ProcPacket × Option State × List Miss).2.1 = c10St :=
  ⟨rfl, rfl, rfl,
   processInternal_replay_at_base_frame c10Node 3 (some 0) c10Packet c10St
     (some c10Packet, c10St, []) rfl rfl rfl⟩

/-! ## Reader processing (src/src/flow/domain/single.rs, Reader arm)

The reader backlog itself (an evmap pair) is repository code outside the
provided sources; modelled from the spec: readers maintain a write-side
and a read-side map from key to rows, atomically swapped, with the same
partial semantics as state.  find_and on the read side returns Err if the
maps were never swapped, Ok(None) for a hole, and Ok(Some(..)) for a
filled key. -/

/-- Modelled from the spec: the double-buffered reader backlog. -/
structure Backlog where
  writeMap : List (DataType × List Row)
  readMap : Option (List (DataType × List Row))
deriving DecidableEq

/-- Outcome of find_and on the read side. -/
inductive FindResult
  | err
  | holeK
  | filledK
deriving DecidableEq

/-- Modelled from the spec: find_and(key) against the read side. -/
def Backlog.findAnd (b : Backlog) (k : DataType) : FindResult :=
  match b.readMap with
  | Option.none => .err
  | some m => if m.any (fun e => e.1 == k) then .filledK else .holeK

/-- Insert a row under its key in the write map. -/
def mapInsert (m : List (DataType × List Row)) (k : DataType) (r : Row) :
    List (DataType × List Row) :=
  match m with
  | [] => [(k, [r])]
  | (k0, rs) :: rest =>
    if k0 = k then (k0, rs ++ [r]) :: rest else (k0, rs) :: mapInsert rest k r

/-- Remove one occurrence of a row under its key in the write map. -/
def mapRemove (m : List (DataType × List Row)) (k : DataType) (r : Row) :
    List (DataType × List Row) :=
  match m with
  | [] => []
  | (k0, rs) :: rest =>
    if k0 = k then (k0, rs.erase r) :: rest else (k0, rs) :: mapRemove rest k r

/-- Modelled from the spec: state.add applies signed records to the
write-side map, keyed by the reader key column. -/
def Backlog.add (b : Backlog) (keyCol : Nat) : List Record → Option Backlog
  | [] => some b
  | .positive r :: rest =>
    Backlog.add { b with writeMap := mapInsert b.writeMap (r.getD keyCol DataType.none) r }
      keyCol rest
  | .negative r :: rest =>
    Backlog.add { b with writeMap := mapRemove b.writeMap (r.getD keyCol DataType.none) r }
      keyCol rest
  | .deleteRequest _ :: _ => Option.none

/-- A reader node: its key column, whether its state is partial, and its
backlog. -/
structure Reader where
  key : Nat
  isPartial : Bool
  backlog : Backlog
deriving DecidableEq

/-- The retain predicate of the replay arm (single.rs lines 105-129): keep
rows filling a hole, drop rows whose key was already replayed to
(duplicate suppression), keep rows when the state was never swapped
(then no reader can have requested a replay, so no duplicates exist). -/
def replayKeep (rd : Reader) (r : Record) : Bool :=
  match rd.backlog.findAnd (r.row.getD rd.key DataType.none) with
  | .holeK => true
  | .filledK => false
  | .err => true

/-- The retain loop of the regular arm (single.rs lines 79-100): drop rows
whose key is a hole (they would miss), keep filled rows; Err is marked
unreachable in the source. -/
def regularRetain (rd : Reader) : List Record → Option (List Record)
  | [] => some []
  | r :: rest =>
    match rd.backlog.findAnd (r.row.getD rd.key DataType.none) with
    | .holeK => regularRetain rd rest
    | .filledK => (regularRetain rd rest).map (fun ks => r :: ks)
    | .err => Option.none

/-- Embedding of the Reader arm of NodeDescriptor::process (src/src/flow/
domain/single.rs lines 75-171): filter the packet data by regularity and
partiality, add the surviving records to the write side, swap if asked.
Readers have no children; the produced data only goes to stream
listeners, which is what the returned record list models.  The
transactional timestamp update is omitted (no claim concerns it). -/
def readerProcess (rd : Reader) (isRegular : Bool) (data : List Record)
    (swapFlag : Bool) : Option (Reader × List Record) :=
  let filtered : Option (List Record) :=
    if isRegular && rd.isPartial then regularRetain rd data
    else if !isRegular && rd.isPartial then some (data.filter (replayKeep rd))
    else some data
  match filtered with
  | Option.none => Option.none
  | some d =>
    match rd.backlog.add rd.key d with
    | Option.none => Option.none
    | some b1 =>
      let b2 := if swapFlag then { b1 with readMap := some b1.writeMap } else b1
      some ({ rd with backlog := b2 }, d)

/-- C2: at a partial reader, a replay piece is filtered so that rows whose
key is already filled are dropped before being applied while rows whose
key is still a hole are kept; consequently, processing a replay piece all
of whose rows have filled keys is a no-op: it behaves exactly like the
empty replay piece, and without a swap it leaves the reader completely
unchanged. -/
theorem reader_replay_duplicate_suppression
    (rd : Reader) (data : List Record) (swapFlag : Bool) (out : Reader × List Record)
    (hp : rd.isPartial = true)
    (h : readerProcess rd false data swapFlag = some out) :
    out.2 = data.filter (replayKeep rd) ∧
    ((∀ r ∈ data, rd.backlog.findAnd (r.row.getD rd.key DataType.none) = .filledK) →
      readerProcess rd false data swapFlag = readerProcess rd false [] swapFlag ∧
      readerProcess rd false data false = some (rd, [])) := by
  have hfilter : ∀ (d : List Record),
      (∀ r ∈ d, rd.backlog.findAnd (r.row.getD rd.key DataType.none) = .filledK) →
      d.filter (replayKeep rd) = [] := by
    intro d hall
    rw [List.filter_eq_nil_iff]
    intro r hr
    unfold replayKeep
    rw [hall r hr]
    simp
  have hproc : ∀ sw, readerProcess rd false data sw =
      (match rd.backlog.add rd.key (data.filter (replayKeep rd)) with
       | Option.none => Option.none
       | some b1 =>
         let b2 := if sw then { b1 with readMap := some b1.writeMap } else b1
         some ({ rd with backlog := b2 }, data.filter (replayKeep rd))) := by
    intro sw
    unfold readerProcess
    simp [hp]
  constructor
  · rw [hproc swapFlag] at h
    cases hadd : rd.backlog.add rd.key (data.filter (replayKeep rd)) with
    | none => rw [hadd] at h; simp at h
    | some b1 =>
      rw [hadd] at h
      simp only [Option.some.injEq] at h
      rw [← h]
  · intro hall
    have hf := hfilter data hall
    constructor
    · rw [hproc swapFlag]
      unfold readerProcess
      simp [hp, hf, Backlog.add]
    · rw [hproc false, hf]
      simp [Backlog.add]

/-- Concrete reader for the C2 witness: partial, keyed on column 0, with
key (int 1) filled on the read side. -/
def c2Reader : Reader :=
  { key := 0, isPartial := true,
    backlog :=
      { writeMap := [(DataType.int 1, [[DataType.int 1, DataType.text "a"]])],
        readMap := some [(DataType.int 1, [[DataType.int 1, DataType.text "a"]])] } }

/-- Concrete duplicate replay piece for the C2 witness: both rows carry
the already-filled key (int 1). -/
def c2Piece : List Record :=
  [Record.positive [DataType.int 1, DataType.text "a"],
   Record.positive [DataType.int 1, DataType.text "b"]]

/-- The reader C2 processing produces after the duplicate piece (swap
publishes the unchanged write side). -/
def c2Out : Reader × List Record :=
  ({ c2Reader with backlog :=
      { c2Reader.backlog with readMap := some c2Reader.backlog.writeMap } }, [])

/-- Witness for C2: the duplicate replay piece is entirely dropped and
processing it is a no-op on the reader. -/
theorem reader_replay_duplicate_suppression_witness :
    c2Reader.isPartial = true ∧
    readerProcess c2Reader false c2Piece true = some c2Out ∧
    (c2Out.2 = c2Piece.filter (replayKeep c2Reader) ∧
     ((∀ r ∈ c2Piece, c2Reader.backlog.findAnd (r.row.getD c2Reader.key DataType.none) =
        .filledK) →
      readerProcess c2Reader false c2Piece true = readerProcess c2Reader false [] true ∧
      readerProcess c2Reader false c2Piece false = some (c2Reader, []))) :=
  ⟨rfl, by decide,
   reader_replay_duplicate_suppression c2Reader c2Piece true c2Out rfl (by decide)⟩

/-! ## Egress processing (src/src/flow/domain/single.rs, Egress arm)

An egress node holds a list of (global child address, remote local dst,
channel) triples and a tag-routing table from replay tag to the global
address of the ingress the replay path continues at.  The channel itself
is modelled by the position of its triple; a send is recorded as
(position, take, packet), where take mirrors whether the packet was moved
into this channel (last send) rather than cloned. -/

/-- The single.rs-era packets an egress can receive: a regular message or
a replay piece tagged with its replay path. -/
inductive SPacket
  | msg (src : Nat) (dst : Nat) (data : List Record)
  | replay (src : Nat) (dst : Nat) (tag : Nat) (data : List Record)
deriving DecidableEq

/-- Rewrite the link of a packet (m.link_mut().src / .dst assignments). -/
def SPacket.withLink (m : SPacket) (src dst : Nat) : SPacket :=
  match m with
  | .msg _ _ d => .msg src dst d
  | .replay _ _ t d => .replay src dst t d

/-- An egress node: (global child address, remote local dst) per channel,
and the tag-routing table. -/
structure Egress where
  txs : List (Nat × Nat)
  tags : List (Nat × Nat)
deriving DecidableEq

/-- Lookup in the egress tag table. -/
def Egress.tagDest (e : Egress) (tag : Nat) : Option Nat :=
  (e.tags.find? (fun p => p.1 == tag)).map (fun p => p.2)

/-- The send loop (single.rs lines 201-232): walk the channels with their
index; for a replay, skip channels whose global address differs from the
routing entry and take the matching one; for a regular packet, send on
every channel, taking only the last.  After a take the loop breaks. -/
def egressLoop (selfIdx : Nat) (m : SPacket) (replayTo : Option Nat) (txn : Nat) :
    Nat → List (Nat × Nat) → List (Nat × Bool × SPacket)
  | _, [] => []
  | i, (g, dst) :: rest =>
    match replayTo with
    | some rt =>
      if rt = g then [(i, true, m.withLink selfIdx dst)]
      else egressLoop selfIdx m replayTo txn (i + 1) rest
    | Option.none =>
      if i = txn then [(i, true, m.withLink selfIdx dst)]
      else (i, false, m.withLink selfIdx dst) :: egressLoop selfIdx m replayTo txn (i + 1) rest

/-- Embedding of the Egress arm of NodeDescriptor::process (src/src/flow/
domain/single.rs lines 181-235).  With no channels the source underflows
computing txs.len() - 1; a replay whose tag is absent from the routing
table hits an expect panic: both are Option.none here. -/
def egressProcess (e : Egress) (selfIdx : Nat) (m : SPacket) :
    Option (List (Nat × Bool × SPacket)) :=
  match e.txs with
  | [] => Option.none
  | _ :: _ =>
    let txn := e.txs.length - 1
    match m with
    | .replay _ _ tag _ =>
      match e.tagDest tag with
      | Option.none => Option.none
      | some g => some (egressLoop selfIdx m (some g) txn 0 e.txs)
    | .msg _ _ _ => some (egressLoop selfIdx m Option.none txn 0 e.txs)

theorem egressLoop_replay_mem (selfIdx : Nat) (m : SPacket) (rt txn : Nat) :
    ∀ (txs : List (Nat × Nat)) (i : Nat) (s : Nat × Bool × SPacket),
    s ∈ egressLoop selfIdx m (some rt) txn i txs →
    ∃ d, (rt, d) ∈ txs ∧ s.2.1 = true ∧ s.2.2 = m.withLink selfIdx d := by
  intro txs
  induction txs with
  | nil => intro i s hs; simp [egressLoop] at hs
  | cons hd tl ih =>
    intro i s hs
    obtain ⟨g, dst⟩ := hd
    simp only [egressLoop] at hs
    by_cases hg : rt = g
    · rw [if_pos hg] at hs
      simp only [List.mem_singleton] at hs
      subst hs
      exact ⟨dst, by simp [hg], rfl, rfl⟩
    · rw [if_neg hg] at hs
      obtain ⟨d, hmem, h1, h2⟩ := ih (i + 1) s hs
      exact ⟨d, List.mem_cons_of_mem _ hmem, h1, h2⟩

theorem egressLoop_replay_length (selfIdx : Nat) (m : SPacket) (rt txn : Nat) :
    ∀ (txs : List (Nat × Nat)) (i : Nat),
    (∃ p ∈ txs, p.1 = rt) →
    (egressLoop selfIdx m (some rt) txn i txs).length = 1 := by
  intro txs
  induction txs with
  | nil => intro i h; simp at h
  | cons hd tl ih =>
    intro i h
    obtain ⟨g, dst⟩ := hd
    simp only [egressLoop]
    by_cases hg : rt = g
    · rw [if_pos hg]; rfl
    · rw [if_neg hg]
      apply ih
      obtain ⟨p, hp, hp1⟩ := h
      rcases List.mem_cons.mp hp with heq | hmem
      · exfalso; apply hg; rw [← hp1, heq]
      · exact ⟨p, hmem, hp1⟩

theorem egressLoop_regular (selfIdx : Nat) (m : SPacket) :
    ∀ (txs : List (Nat × Nat)) (i txn : Nat),
    i + txs.length = txn + 1 →
    egressLoop selfIdx m Option.none txn i txs =
      (txs.enumFrom i).map (fun jd => (jd.1, decide (jd.1 = txn), m.withLink selfIdx jd.2.2)) := by
  intro txs
  induction txs with
  | nil => intro i txn _; simp [egressLoop]
  | cons hd tl ih =>
    intro i txn hlen
    obtain ⟨g, dst⟩ := hd
    simp only [egressLoop, List.enumFrom, List.map_cons]
    by_cases hi : i = txn
    · rw [if_pos hi]
      have htl : tl = [] := by
        have : tl.length = 0 := by
          simp only [List.length_cons] at hlen
          omega
        exact List.eq_nil_of_length_eq_zero this
      subst htl
      simp [hi]
    · rw [if_neg hi]
      have : i + 1 + tl.length = txn + 1 := by
        simp only [List.length_cons] at hlen
        omega
      rw [ih (i + 1) txn this]
      simp [hi]

/-- C3: an egress forwards a replay packet on exactly one channel, one
whose global child address equals the tag-routing table's entry for the
replay tag (the packet is moved, not cloned, and re-linked to that
channel's remote destination); a regular packet is sent on every channel
in order, cloned into each non-last channel and moved into the last. -/
theorem egress_routing
    (e : Egress) (selfIdx : Nat) (m : SPacket) (sends : List (Nat × Bool × SPacket))
    (h : egressProcess e selfIdx m = some sends) :
    (∀ src dst tag data, m = .replay src dst tag data →
      ∀ g, e.tagDest tag = some g →
      (∃ p ∈ e.txs, p.1 = g) →
      sends.length = 1 ∧
      ∀ s ∈ sends, ∃ d, (g, d) ∈ e.txs ∧ s.2.1 = true ∧
        s.2.2 = SPacket.replay selfIdx d tag data) ∧
    (∀ src dst data, m = .msg src dst data →
      sends = (e.txs.enumFrom 0).map (fun jd =>
        (jd.1, decide (jd.1 = e.txs.length - 1), SPacket.msg selfIdx jd.2.2 data))) := by
  constructor
  · intro src dst tag data hm g hg hex
    subst hm
    unfold egressProcess at h
    cases htxs : e.txs with
    | nil => rw [htxs] at h; simp at h
    | cons hd tl =>
      rw [htxs] at h
      simp only [hg] at h
      simp only [Option.some.injEq] at h
      subst h
      rw [← htxs]
      constructor
      · exact egressLoop_replay_length selfIdx _ g _ e.txs 0 hex
      · intro s hs
        obtain ⟨d, hmem, h1, h2⟩ :=
          egressLoop_replay_mem selfIdx _ g _ e.txs 0 s hs
        exact ⟨d, hmem, h1, h2⟩
  · intro src dst data hm
    subst hm
    unfold egressProcess at h
    cases htxs : e.txs with
    | nil => rw [htxs] at h; simp at h
    | cons hd tl =>
      rw [htxs] at h
      simp only [Option.some.injEq] at h
      subst h
      rw [← htxs]
      have hlen : 0 + e.txs.length = (e.txs.length - 1) + 1 := by
        rw [htxs]; simp
      rw [egressLoop_regular selfIdx _ e.txs 0 (e.txs.length - 1) hlen]
      rfl

/-- Concrete egress for the C3 witness: three channels; tag 9 routes to
the channel with global address 20. -/
def c3Egress : Egress :=
  { txs := [(10, 100), (20, 200), (30, 300)], tags := [(9, 20)] }

/-- Witness for C3: the replay on tag 9 goes only to channel 1 (global
address 20), re-linked to local destination 200. -/
theorem egress_routing_witness :
    egressProcess c3Egress 5 (SPacket.replay 0 1 9 [Record.positive [DataType.int 4]]) =
      some [(1, true, SPacket.replay 5 200 9 [Record.positive [DataType.int 4]])] ∧
    c3Egress.tagDest 9 = some 20 ∧
    (∃ p ∈ c3Egress.txs, p.1 = 20) ∧
    ([(1, true, SPacket.replay 5 200 9 [Record.positive [DataType.int 4]])].length = 1 ∧
     ∀ s ∈ [(1, true, SPacket.replay 5 200 9 [Record.positive [DataType.int 4]])],
       ∃ d, (20, d) ∈ c3Egress.txs ∧ s.2.1 = true ∧
         s.2.2 = SPacket.replay 5 d 9 [Record.positive [DataType.int 4]]) :=
  ⟨by decide, by decide, ⟨(20, 200), by decide, rfl⟩,
   (egress_routing c3Egress 5 _ _ (by decide)).1 0 1 9 _ rfl 20 (by decide)
     ⟨(20, 200), by decide, rfl⟩⟩

/-! ## Two-way join (src/src/ops/join.rs, Joiner)

The join map is an association list from source node to its join
bookkeeping; the against map gives, per opposite side, the (lefti,
righti) column pairings and whether that side is outer.  The select
vector only shapes the query projection (all true) and is omitted.
State lookup of the opposite side is modelled by a function from node to
its rows: the source either reads the materialized state or queries the
node, both yielding that node's rows, which the join conditions then
filter. -/

/-- Per-opposite-side join bookkeeping (struct JoinTarget). -/
structure JoinTarget where
  fields : List (Nat × Nat)
  outer : Bool
deriving DecidableEq

/-- Per-source join bookkeeping (struct Join, sans the redundant node
field). -/
structure JoinSide where
  against : List (Nat × JoinTarget)
deriving DecidableEq

/-- The two-way join operator (struct Joiner). -/
structure Joiner where
  emit : List (Nat × Nat)
  join : List (Nat × JoinSide)
deriving DecidableEq

/-- Association-list lookup standing in for HashMap indexing. -/
def lookupA {α : Type} (l : List (Nat × α)) (k : Nat) : Option α :=
  (l.find? (fun p => p.1 == k)).map (fun p => p.2)

/-- The opposite side of a record's source: the join key that differs
from it (Joiner::join line 196). -/
def Joiner.otherSide (j : Joiner) (src : Nat) : Option Nat :=
  (j.join.map (fun p => p.1)).find? (fun k => !(k == src))

/-- Rows of the opposite side matching the incoming row on the join
columns (the equality conditions sent to the opposite state). -/
def joinMatches (target : JoinTarget) (lrow : Row) (orows : List Row) : List Row :=
  orows.filter (fun orow => target.fields.all (fun p =>
    orow.getD p.2 DataType.none == lrow.getD p.1 DataType.none))

/-- Weave one output row from the incoming row and one matching opposite
row, per the emit list (Joiner::join lines 241-259). -/
def weave (emit : List (Nat × Nat)) (other : Nat) (lrow orow : Row) : Row :=
  emit.map (fun sc =>
    if sc.1 = other then orow.getD sc.2 DataType.none
    else lrow.getD sc.2 DataType.none)

/-- The null-padded row an outer join emits when the opposite side has no
matches (Joiner::join lines 226-239). -/
def weaveNull (emit : List (Nat × Nat)) (other : Nat) (lrow : Row) : Row :=
  emit.map (fun sc =>
    if sc.1 = other then DataType.none
    else lrow.getD sc.2 DataType.none)

/-- Embedding of Joiner::join (src/src/ops/join.rs lines 189-260) for one
incoming row: look up the opposite side's matching rows; a left join
with zero matches emits the single null-padded row; otherwise one woven
row per match.  Failed map lookups are indexing panics in the source. -/
def Joiner.joinOne (j : Joiner) (src : Nat) (lrow : Row) (states : Nat → List Row) :
    Option (List Row) :=
  match j.otherSide src with
  | Option.none => Option.none
  | some other =>
    match lookupA j.join src with
    | Option.none => Option.none
    | some this0 =>
      match lookupA this0.against other with
      | Option.none => Option.none
      | some target =>
        let rx := joinMatches target lrow (states other)
        some (if rx.isEmpty && target.outer then [weaveNull j.emit other lrow]
              else rx.map (fun orow => weave j.emit other lrow orow))

/-- Record::extract, yielding the row and its sign. -/
def Record.extract : Record → Option (Row × Bool)
  | .positive r => some (r, true)
  | .negative r => some (r, false)
  | .deleteRequest _ => Option.none

/-- A record built from a row and a sign (the inverse of extract; the
re-signing at the end of on_input). -/
def mkRecord (pos : Bool) (r : Row) : Record :=
  if pos then Record.positive r else Record.negative r

@[simp] theorem mkRecord_extract (pos : Bool) (r : Row) :
    (mkRecord pos r).extract = some (r, pos) := by
  cases pos <;> rfl

/-- Embedding of Joiner::on_input (src/src/ops/join.rs lines 311-343):
flat-map each incoming record through the join, re-signing every produced
row with the incoming record's sign. -/
def Joiner.onInput (j : Joiner) (src : Nat) (rs : List Record)
    (states : Nat → List Row) : Option (List Record) :=
  match rs with
  | [] => some []
  | rec :: rest =>
    match rec.extract with
    | Option.none => Option.none
    | some (r, pos) =>
      match j.joinOne src r states with
      | Option.none => Option.none
      | some rows =>
        (j.onInput src rest states).map (fun tail =>
          rows.map (fun res =>
            if pos then Record.positive res else Record.negative res) ++ tail)

/-- C4: a record arriving at the join from one side produces, when the
opposite-side target is inner or the lookup finds at least one match, one
output record per matching opposite row, woven according to the emit
list, and every output record carries the incoming record's sign. -/
theorem joiner_on_input_per_match
    (j : Joiner) (src : Nat) (r : Row) (pos : Bool) (states : Nat → List Row)
    (other : Nat) (this0 : JoinSide) (target : JoinTarget)
    (hother : j.otherSide src = some other)
    (hthis : lookupA j.join src = some this0)
    (htarget : lookupA this0.against other = some target)
    (hcase : target.outer = false ∨ joinMatches target r (states other) ≠ []) :
    j.onInput src [mkRecord pos r] states =
      some ((joinMatches target r (states other)).map (fun orow =>
        mkRecord pos (weave j.emit other r orow))) := by
  have hjoin : j.joinOne src r states =
      some ((joinMatches target r (states other)).map (fun orow =>
        weave j.emit other r orow)) := by
    simp only [Joiner.joinOne, hother, hthis, htarget]
    rcases hcase with hc | hc
    · simp [hc]
    · cases hrx : joinMatches target r (states other) with
      | nil => exact absurd hrx hc
      | cons a as => simp [List.isEmpty]
  simp only [Joiner.onInput, mkRecord_extract, hjoin]
  simp [mkRecord]

/-- C5: a record arriving at a left (outer) join whose opposite-side
lookup finds no matching rows produces exactly one output record, carrying
the incoming sign, in which every column emitted from the opposite side
is DataType.none and every other column takes the incoming record's
value. -/
theorem joiner_left_join_null_row
    (j : Joiner) (src : Nat) (r : Row) (pos : Bool) (states : Nat → List Row)
    (other : Nat) (this0 : JoinSide) (target : JoinTarget)
    (hother : j.otherSide src = some other)
    (hthis : lookupA j.join src = some this0)
    (htarget : lookupA this0.against other = some target)
    (houter : target.outer = true)
    (hempty : joinMatches target r (states other) = []) :
    j.onInput src [mkRecord pos r] states =
      some [mkRecord pos (weaveNull j.emit other r)] ∧
    weaveNull j.emit other r = j.emit.map (fun sc =>
      if sc.1 = other then DataType.none else r.getD sc.2 DataType.none) := by
  have hjoin : j.joinOne src r states = some [weaveNull j.emit other r] := by
    simp only [Joiner.joinOne, hother, hthis, htarget, hempty]
    simp [houter, List.isEmpty]
  refine ⟨?_, rfl⟩
  simp only [Joiner.onInput, mkRecord_extract, hjoin]
  simp [mkRecord]

/-- Concrete joiner for the C4/C5 witnesses: sides 1 and 2 joined on
column 0 of each, emitting (1,0), (1,1), (2,1); side 2 is outer. -/
def c45Joiner : Joiner :=
  { emit := [(1, 0), (1, 1), (2, 1)],
    join :=
      [(1, { against := [(2, { fields := [(0, 0)], outer := true })] }),
       (2, { against := [(1, { fields := [(0, 0)], outer := false })] })] }

/-- Opposite-side rows for the C4 witness: node 2 holds two rows keyed
(int 1) and one keyed (int 2). -/
def c45States : Nat → List Row :=
  fun n =>
    if n = 2 then
      [[DataType.int 1, DataType.text "x"],
       [DataType.int 1, DataType.text "y"],
       [DataType.int 2, DataType.text "z"]]
    else []

/-- Witness for C4: the row (1, a) from side 1 joins both (1, x) and
(1, y) of side 2, keeping the positive sign. -/
theorem joiner_on_input_per_match_witness :
    c45Joiner.otherSide 1 = some 2 ∧
    (lookupA c45Joiner.join 1).isSome = true ∧
    c45Joiner.onInput 1 [mkRecord true [DataType.int 1, DataType.text "a"]] c45States =
      some [Record.positive [DataType.int 1, DataType.text "a", DataType.text "x"],
            Record.positive [DataType.int 1, DataType.text "a", DataType.text "y"]] := by
  refine ⟨by decide, by decide, ?_⟩
  have h := joiner_on_input_per_match c45Joiner 1
    [DataType.int 1, DataType.text "a"] true c45States 2
    { against := [(2, { fields := [(0, 0)], outer := true })] }
    { fields := [(0, 0)], outer := true }
    (by decide) (by decide) (by decide)
    (Or.inr (by decide))
  rw [h]
  decide

/-- Witness for C5: the row (7, q) from side 1 matches nothing on side 2,
so the outer join emits the single null-padded positive row. -/
theorem joiner_left_join_null_row_witness :
    c45Joiner.onInput 1 [mkRecord true [DataType.int 7, DataType.text "q"]] c45States =
      some [Record.positive [DataType.int 7, DataType.text "q", DataType.none]] ∧
    joinMatches { fields := [(0, 0)], outer := true }
      [DataType.int 7, DataType.text "q"] (c45States 2) = [] := by
  refine ⟨?_, by decide⟩
  have h := joiner_left_join_null_row c45Joiner 1
    [DataType.int 7, DataType.text "q"] true c45States 2
    { against := [(2, { fields := [(0, 0)], outer := true })] }
    { fields := [(0, 0)], outer := true }
    (by decide) (by decide) (by decide) rfl (by decide)
  rw [h.1]
  decide

/-! ## Group-concat (src/noria/server/dataflow/src/ops/grouped/conkitten.rs)

GroupConkitten::apply takes the current aggregate value for a group (as
looked up by the surrounding grouped operator) and the batch of diffs for
that group, and reconciles them against its cached per-group LastState.
The RefCell-held cache is modelled by explicit state passing: apply takes
the cache and returns the updated cache alongside the new aggregate. -/

/-- The error kinds the embedded group-concat paths can produce. -/
inductive ReadySetError
  | groupedStateLost
  | invalidRecordLength
  | internalErr (msg : String)
deriving DecidableEq

/-- The last stored state for a given group (struct LastState). -/
structure LastState where
  stringRepr : String
  dataForSourceCols : List (List DataType)
deriving DecidableEq

/-- LastState::make. -/
def LastState.make (numSourceCols : Nat) : LastState :=
  { stringRepr := "", dataForSourceCols := List.replicate numSourceCols [] }

/-- The operator configuration (struct GroupConkitten, sans the RefCell
cache, which apply threads explicitly). -/
structure GroupConkitten where
  sourceCols : List Nat
  groupBy : List Nat
  separator : String
deriving DecidableEq

/-- One diff (struct KittenDiff). -/
structure KittenDiff where
  record : Record
  groupBy : List DataType
deriving DecidableEq

/-- The text content of a value, for Text and TinyText variants only (the
filter + &str conversion applied to current at the top of apply). -/
def textAsStr : DataType → Option String
  | .text s => some s
  | .tinyText s => some s
  | _ => Option.none

/-- Lookup in the cached per-group state map. -/
def lookupG (m : List (List DataType × LastState)) (k : List DataType) :
    Option LastState :=
  (m.find? (fun p => p.1 == k)).map (fun p => p.2)

/-- Remove a group's entry from the cache map. -/
def removeG (m : List (List DataType × LastState)) (k : List DataType) :
    List (List DataType × LastState) :=
  m.filter (fun p => !(p.1 == k))

/-- Embedding of concat_fmt: Text and TinyText contribute their string;
other variants contribute their Display rendering.  Modelled from the
spec for the non-text variants: the Display impl of the value type is
outside the provided sources (only the int rendering is exercised by the
operator's own tests). -/
def concatFmt : DataType → String
  | .text s => s
  | .tinyText s => s
  | .int n => toString n
  | .none => "None"

/-- The rposition + remove used for a negative diff: drop the last
occurrence of the value. -/
def rposition (cs : List DataType) (dt : DataType) : Option Nat :=
  ((cs.enum.filter (fun p => p.2 == dt)).map (fun p => p.1)).getLast?

/-- The inner per-column loop of apply: push each positive value onto its
source column's data, remove the last occurrence for a negative; an
out-of-range column or an absent value is an internal error. -/
def applyDiffCols (positive : Bool) :
    Nat → List DataType → List (List DataType) →
    Except ReadySetError (List (List DataType))
  | _, [], cols => .ok cols
  | i, dt :: rest, cols =>
    match cols.get? i with
    | Option.none =>
      .error (.internalErr "group_concat received overlong data for previous col_state")
    | some cs =>
      if positive then applyDiffCols positive (i + 1) rest (cols.set i (cs ++ [dt]))
      else
        match rposition cs dt with
        | Option.none => .error (.internalErr "group_concat could not remove value")
        | some idx => applyDiffCols positive (i + 1) rest (cols.set i (cs.eraseIdx idx))

/-- The loop over all diffs of the batch; every diff must belong to the
same group (invariant_eq in the source). -/
def applyDiffs (group : List DataType) :
    List KittenDiff → LastState → Except ReadySetError LastState
  | [], prev => .ok prev
  | kd :: rest, prev =>
    if kd.groupBy ≠ group then .error (.internalErr "group_by != group")
    else
      match kd.record.extract with
      | Option.none => .error (.internalErr "unreachable record kind")
      | some (data, positive) =>
        match applyDiffCols positive 0 data prev.dataForSourceCols with
        | .error e => .error e
        | .ok cols => applyDiffs group rest { prev with dataForSourceCols := cols }

/-- The output-string construction at the end of apply: every piece in
column order, with the separator after each piece except the final piece
of the final column. -/
def buildOut (sep : String) (cols : List (List DataType)) : String :=
  let n := cols.length
  String.join ((cols.enum).map (fun idata =>
    String.join ((idata.2.enum).map (fun jpiece =>
      concatFmt jpiece.2 ++
        (if jpiece.1 = idata.2.length - 1 ∧ idata.1 = n - 1 then "" else sep)))))

/-- Embedding of GroupConkitten::apply (conkitten.rs lines 136-200).  The
current aggregate is usable only if it is a text value equal to the
cached string representation for the group; a non-matching current text
value is GroupedStateLost; an absent current value starts a fresh
LastState.  On success the new string representation is cached and
returned as the new aggregate value. -/
def GroupConkitten.apply (op : GroupConkitten)
    (lastState : List (List DataType × LastState))
    (current : Option DataType) (diffs : List KittenDiff) :
    Except ReadySetError (DataType × List (List DataType × LastState)) :=
  let currentStr : Option String := current.bind textAsStr
  match diffs with
  | [] => .error (.internalErr "group_concat got no diffs")
  | firstDiff :: restDiffs =>
    let group := firstDiff.groupBy
    let ls := lookupG lastState group
    let remaining := removeG lastState group
    let prevState : Except ReadySetError LastState :=
      match currentStr, ls with
      | some text, some l =>
        if text = l.stringRepr then .ok l else .error .groupedStateLost
      | some _, Option.none => .error .groupedStateLost
      | Option.none, _ => .ok (LastState.make op.sourceCols.length)
    match prevState with
    | .error e => .error e
    | .ok prev =>
      match applyDiffs group (firstDiff :: restDiffs) prev with
      | .error e => .error e
      | .ok prev1 =>
        let outStr := buildOut op.separator prev1.dataForSourceCols
        .ok (DataType.text outStr,
             (group, { prev1 with stringRepr := outStr }) :: remaining)

/-- C6: when apply is invoked with a current aggregate (a text value, as
group-concat aggregates always are) that does not match the operator's
cached string representation for the group — including when the cache
holds no entry for that group at all — it returns the GroupedStateLost
error and emits no new aggregate value. -/
theorem groupConkitten_apply_state_lost
    (op : GroupConkitten) (lastState : List (List DataType × LastState))
    (v : DataType) (s : String) (firstDiff : KittenDiff) (restDiffs : List KittenDiff)
    (htext : textAsStr v = some s)
    (hmismatch : ∀ l, lookupG lastState firstDiff.groupBy = some l → s ≠ l.stringRepr) :
    op.apply lastState (some v) (firstDiff :: restDiffs) =
      .error .groupedStateLost := by
  unfold GroupConkitten.apply
  simp only [Option.some_bind, htext]
  cases hls : lookupG lastState firstDiff.groupBy with
  | none => rfl
  | some l =>
    have hne := hmismatch l hls
    simp [hne]

/-- Concrete cache and diff for the C6 witness: the cache says group
(int 1) last emitted "1", but the incoming current aggregate is "2". -/
def c6Cache : List (List DataType × LastState) :=
  [([DataType.int 1],
    { stringRepr := "1", dataForSourceCols := [[DataType.int 1]] })]

/-- Concrete diff for the C6 witness. -/
def c6Diff : KittenDiff :=
  { record := Record.positive [DataType.int 2], groupBy := [DataType.int 1] }

/-- Witness for C6: the mismatched current aggregate makes apply return
GroupedStateLost. -/
theorem groupConkitten_apply_state_lost_witness :
    textAsStr (DataType.text "2") = some "2" ∧
    (∀ l, lookupG c6Cache c6Diff.groupBy = some l → "2" ≠ l.stringRepr) ∧
    GroupConkitten.apply
      { sourceCols := [1], groupBy := [0], separator := "#" }
      c6Cache (some (DataType.text "2")) [c6Diff] =
      .error .groupedStateLost :=
  ⟨rfl, by decide,
   groupConkitten_apply_state_lost
     { sourceCols := [1], groupBy := [0], separator := "#" }
     c6Cache (DataType.text "2") "2" c6Diff [] rfl (by decide)⟩

/-! ## Framed TCP channel (src/channel/src/tcp.rs)

The sender is a state machine over (poisoned flag, bytes written so far);
bincode serialization is abstracted as a byte encoding function, with
serialized_size equal to the encoding's length (the bincode contract).
I/O faults are injected per call through an oracle naming the failing
step, mirroring the three poisoning_try sites of send_ref.  The receiver
framing (DeserializeReceiver) is repository code outside the provided
sources; it is modelled from the spec: readers refuse to process until a
full length-prefixed frame is buffered. -/

/-- Big-endian u32 encoding of a length (WriteBytesExt::write_u32 with
NetworkEndian). -/
def u32be (n : Nat) : List Nat :=
  [n / 2 ^ 24 % 256, n / 2 ^ 16 % 256, n / 2 ^ 8 % 256, n % 256]

/-- Big-endian u32 decoding. -/
def u32beDecode (b0 b1 b2 b3 : Nat) : Nat :=
  ((b0 * 256 + b1) * 256 + b2) * 256 + b3

/-- A TCP sender endpoint: poisoned flag and the bytes written to its
stream. -/
structure TcpSender where
  poisoned : Bool
  written : List Nat
deriving DecidableEq

/-- The three fallible steps of send_ref, for fault injection. -/
inductive SendStep
  | writeLen
  | writeBody
  | flush
deriving DecidableEq

/-- SendError. -/
inductive SendError
  | bincodeError
  | ioError
  | poisonedErr
deriving DecidableEq

/-- Embedding of TcpSender::send_ref (src/channel/src/tcp.rs lines
94-108): an already-poisoned sender refuses immediately; otherwise the
4-byte big-endian length frame is written before the serialized body; a
fault at any step poisons the sender, leaving the bytes of the completed
steps.  A body of 2^32 bytes or more makes the u32 conversion unwrap
panic (Option.none).  The serialized size of the bincode contract equals
the encoding's length. -/
def sendRef {T : Type} (ser : T → List Nat) (s : TcpSender) (t : T)
    (fault : Option SendStep) : Option (TcpSender × Except SendError Unit) :=
  if s.poisoned then some (s, .error .poisonedErr)
  else if (ser t).length ≥ 2 ^ 32 then Option.none
  else
    match fault with
    | some .writeLen => some ({ s with poisoned := true }, .error .ioError)
    | some .writeBody =>
      some ({ poisoned := true, written := s.written ++ u32be (ser t).length },
            .error .bincodeError)
    | some .flush =>
      some ({ poisoned := true,
              written := s.written ++ u32be (ser t).length ++ ser t },
            .error .ioError)
    | Option.none =>
      some ({ s with written := s.written ++ u32be (ser t).length ++ ser t },
            .ok ())

/-- A sequence of send calls threading the sender state. -/
def sendMany {T : Type} (ser : T → List Nat) :
    TcpSender → List (T × Option SendStep) →
    Option (TcpSender × List (Except SendError Unit))
  | s, [] => some (s, [])
  | s, (t, f) :: rest =>
    match sendRef ser s t f with
    | Option.none => Option.none
    | some (s1, res) =>
      (sendMany ser s1 rest).map (fun out => (out.1, res :: out.2))

/-- A TCP receiver endpoint (its framing buffer is modelled separately;
the poisoned flag is what try_recv consults). -/
structure TcpReceiver where
  poisoned : Bool
deriving DecidableEq

/-- What the underlying deserialize_receiver step yields on one call. -/
inductive RecvOutcome (T : Type)
  | msg (t : T)
  | wouldBlock
  | ioError
  | deserError

/-- TryRecvError. -/
inductive TryRecvError
  | empty
  | disconnected
  | deserializationError
deriving DecidableEq

/-- Embedding of TcpReceiver::try_recv (src/channel/src/tcp.rs lines
268-285): a poisoned receiver returns Disconnected; a WouldBlock is
Empty and does not poison; an I/O error poisons and returns Disconnected;
a deserialization error poisons and returns DeserializationError. -/
def tryRecvStep {T : Type} (r : TcpReceiver) (o : RecvOutcome T) :
    TcpReceiver × Except TryRecvError T :=
  if r.poisoned then (r, .error .disconnected)
  else
    match o with
    | .msg t => (r, .ok t)
    | .wouldBlock => (r, .error .empty)
    | .ioError => ({ poisoned := true }, .error .disconnected)
    | .deserError => ({ poisoned := true }, .error .deserializationError)

/-- A sequence of try_recv calls threading the receiver state. -/
def tryRecvMany {T : Type} : TcpReceiver → List (RecvOutcome T) →
    List (Except TryRecvError T)
  | _, [] => []
  | r, o :: os =>
    let step := tryRecvStep r o
    step.2 :: tryRecvMany step.1 os

/-- Modelled from the spec: the frame length declared by the first four
buffered bytes, if four bytes are buffered. -/
def frameLen (buf : List Nat) : Option Nat :=
  match buf with
  | b0 :: b1 :: b2 :: b3 :: _ => some (u32beDecode b0 b1 b2 b3)
  | _ => Option.none

/-- Modelled from the spec: the receiver's framing step.  It refuses to
yield (Option.none, a WouldBlock) until the buffer holds the 4-byte
length prefix and the complete declared body; then it yields the body
bytes and the remaining buffer. -/
def tryRecvBody (buf : List Nat) (len : Nat) : Option (List Nat × List Nat) :=
  if (buf.drop 4).length < len then Option.none
  else some ((buf.drop 4).take len, (buf.drop 4).drop len)

def tryRecvRaw (buf : List Nat) : Option (List Nat × List Nat) :=
  match frameLen buf with
  | Option.none => Option.none
  | some len => tryRecvBody buf len

theorem u32be_length (n : Nat) : (u32be n).length = 4 := rfl

theorem frameLen_some_length {buf : List Nat} {len : Nat}
    (h : frameLen buf = some len) : 4 ≤ buf.length := by
  match buf with
  | b0 :: b1 :: b2 :: b3 :: rest => simp
  | [] => simp [frameLen] at h
  | [b0] => simp [frameLen] at h
  | [b0, b1] => simp [frameLen] at h
  | [b0, b1, b2] => simp [frameLen] at h

theorem u32be_decode (n : Nat) (h : n < 2 ^ 32) :
    ∀ tail, frameLen (u32be n ++ tail) = some n := by
  intro tail
  simp only [u32be, List.cons_append, List.nil_append, frameLen, u32beDecode,
    Option.some.injEq]
  omega

/-- C8: a message is framed as a 4-byte big-endian u32 length prefix equal
to the serialized body's size, written before the body; and the receiver
yields nothing while the buffer is shorter than the declared frame,
delivering exactly the body once the full frame is buffered. -/
theorem tcp_framing {T : Type} (ser : T → List Nat) :
    (∀ (s : TcpSender) (t : T), s.poisoned = false → (ser t).length < 2 ^ 32 →
      sendRef ser s t Option.none =
        some ({ s with written := s.written ++ u32be (ser t).length ++ ser t },
              .ok ())) ∧
    (∀ n, (u32be n).length = 4) ∧
    (∀ buf, buf.length < 4 → tryRecvRaw buf = Option.none) ∧
    (∀ buf len, frameLen buf = some len → buf.length < 4 + len →
      tryRecvRaw buf = Option.none) ∧
    (∀ (body rest : List Nat), body.length < 2 ^ 32 →
      tryRecvRaw (u32be body.length ++ body ++ rest) = some (body, rest)) := by
  refine ⟨?_, fun n => rfl, ?_, ?_, ?_⟩
  · intro s t hp hlen
    unfold sendRef
    rw [hp]
    simp only [Bool.false_eq_true, if_false]
    rw [if_neg (by omega)]
  · intro buf hlen
    unfold tryRecvRaw frameLen
    match buf, hlen with
    | [], _ => rfl
    | [b0], _ => rfl
    | [b0, b1], _ => rfl
    | [b0, b1, b2], _ => rfl
    | b0 :: b1 :: b2 :: b3 :: rest, hlen => simp at hlen; omega
  · intro buf len hframe hlen
    unfold tryRecvRaw
    rw [hframe]
    show tryRecvBody buf len = Option.none
    unfold tryRecvBody
    have h4 : (buf.drop 4).length = buf.length - 4 := List.length_drop 4 buf
    have hb := frameLen_some_length hframe
    rw [if_pos (by omega)]
  · intro body rest hlen
    unfold tryRecvRaw
    rw [List.append_assoc, u32be_decode body.length hlen (body ++ rest)]
    show tryRecvBody (u32be body.length ++ (body ++ rest)) body.length = _
    unfold tryRecvBody
    have hdrop : (u32be body.length ++ (body ++ rest)).drop 4 = body ++ rest := by
      have := List.drop_left (u32be body.length) (body ++ rest)
      rwa [u32be_length] at this
    rw [hdrop]
    rw [if_neg (by simp)]
    rw [List.take_left, List.drop_left]

/-- Witness for C8: sending two bytes on a fresh sender writes the frame
00 00 00 02 then the body; the receiver refuses a truncated buffer and
delivers the body from the full one. -/
theorem tcp_framing_witness :
    (({ poisoned := false, written := [] } : TcpSender).poisoned = false ∧
     ((fun n : Nat => [n % 256, n / 256 % 256]) 777).length < 2 ^ 32 ∧
     sendRef (fun n : Nat => [n % 256, n / 256 % 256])
       { poisoned := false, written := [] } 777 Option.none =
       some ({ poisoned := false, written := [0, 0, 0, 2, 9, 3] }, .ok ())) ∧
    ([0, 0, 0] : List Nat).length < 4 ∧
    tryRecvRaw [0, 0, 0] = Option.none ∧
    tryRecvRaw [0, 0, 0, 2, 9] = Option.none ∧
    tryRecvRaw [0, 0, 0, 2, 9, 3, 5] = some ([9, 3], [5]) := by
  refine ⟨⟨rfl, by decide, ?_⟩, by decide, by decide, by decide, by decide⟩
  have h := (tcp_framing (fun n : Nat => [n % 256, n / 256 % 256])).1
    { poisoned := false, written := [] } 777 rfl (by decide)
  rw [h]
  rfl

/-- C9: a failed send poisons the sender, after which every send returns
the Poisoned error without writing any bytes; a receive that fails with
an I/O or deserialization error poisons the receiver, after which every
receive attempt returns Disconnected.  (A WouldBlock receive result is
the transient empty case, not a failure, and does not poison.) -/
theorem tcp_poisoning {T : Type} (ser : T → List Nat) :
    (∀ (s s1 : TcpSender) (t : T) (fault : Option SendStep) (e : SendError),
      sendRef ser s t fault = some (s1, .error e) → s1.poisoned = true) ∧
    (∀ (s : TcpSender), s.poisoned = true →
      ∀ calls, sendMany ser s calls =
        some (s, calls.map (fun _ => .error .poisonedErr))) ∧
    (∀ (r : TcpReceiver) (o : RecvOutcome T),
      (tryRecvStep r o).2 = .error .disconnected ∨
        (tryRecvStep r o).2 = .error .deserializationError →
      (tryRecvStep r o).1.poisoned = true) ∧
    (∀ (r : TcpReceiver), r.poisoned = true →
      ∀ (os : List (RecvOutcome T)),
        tryRecvMany r os = os.map (fun _ => .error .disconnected)) := by
  refine ⟨?_, ?_, ?_, ?_⟩
  · intro s s1 t fault e h
    unfold sendRef at h
    by_cases hp : s.poisoned
    · rw [if_pos hp] at h
      simp only [Option.some.injEq, Prod.mk.injEq] at h
      rw [← h.1]
      exact hp
    · rw [if_neg hp] at h
      by_cases hlen : (ser t).length ≥ 2 ^ 32
      · rw [if_pos hlen] at h; simp at h
      · rw [if_neg hlen] at h
        match fault with
        | some .writeLen =>
          simp only [Option.some.injEq, Prod.mk.injEq] at h
          rw [← h.1]
        | some .writeBody =>
          simp only [Option.some.injEq, Prod.mk.injEq] at h
          rw [← h.1]
        | some .flush =>
          simp only [Option.some.injEq, Prod.mk.injEq] at h
          rw [← h.1]
        | Option.none => simp at h
  · intro s hp calls
    induction calls with
    | nil => rfl
    | cons c rest ih =>
      obtain ⟨t, f⟩ := c
      simp only [sendMany, sendRef, hp, if_true, ih, Option.map_some', List.map_cons]
  · intro r o h
    unfold tryRecvStep at h ⊢
    by_cases hp : r.poisoned
    · rw [if_pos hp]
      exact hp
    · rw [if_neg hp] at h ⊢
      cases o with
      | msg t => simp at h
      | wouldBlock => simp at h
      | ioError => rfl
      | deserError => rfl
  · intro r hp os
    induction os with
    | nil => rfl
    | cons o rest ih =>
      simp only [tryRecvMany, tryRecvStep, hp, if_true, List.map_cons]
      exact congrArg _ ih

/-- Witness for C9: a send that fails at the flush step poisons the
sender; both later sends return Poisoned and leave the stream bytes
untouched; a receiver poisoned by a deserialization error returns
Disconnected on every later call. -/
theorem tcp_poisoning_witness :
    sendRef (fun n : Nat => [n % 256]) { poisoned := false, written := [] } 5
      (some .flush) =
      some ({ poisoned := true, written := [0, 0, 0, 1, 5] }, .error .ioError) ∧
    (({ poisoned := true, written := [0, 0, 0, 1, 5] } : TcpSender).poisoned = true ∧
     sendMany (fun n : Nat => [n % 256])
       { poisoned := true, written := [0, 0, 0, 1, 5] }
       [(7, Option.none), (8, some .writeLen)] =
       some ({ poisoned := true, written := [0, 0, 0, 1, 5] },
             [.error .poisonedErr, .error .poisonedErr])) ∧
    (({ poisoned := true } : TcpReceiver).poisoned = true ∧
     tryRecvMany { poisoned := true }
       [RecvOutcome.msg (42 : Nat), RecvOutcome.wouldBlock] =
       [.error .disconnected, .error .disconnected]) := by
  refine ⟨rfl, ⟨rfl, ?_⟩, ⟨rfl, ?_⟩⟩
  · exact (tcp_poisoning (fun n : Nat => [n % 256])).2.1
      { poisoned := true, written := [0, 0, 0, 1, 5] } rfl
      [(7, Option.none), (8, some .writeLen)]
  · exact (tcp_poisoning (T := Nat) (fun n : Nat => [n % 256])).2.2.2
      { poisoned := true } rfl [RecvOutcome.msg 42, RecvOutcome.wouldBlock]

/-! ## Column provenance tracing (src/noria/server/src/controller/keys.rs)

provenance_of / trace walk the graph upward from a node and a column
set, resolving each traced column through each node's parent_columns,
forking at multi-parent nodes.  Columns are Option column indices; a
generated column resolves to None.  The graph is modelled by its parent
lists and per-node kinds; internal nodes carry their is_join flag and
parent_columns function.  HashMap iteration over the resolved-ancestor
map is determinized to first-appearance order of the ancestors in the
origins list (the properties proved are order-independent).  Rust panics
(unreachable, asserts, unwraps, the unimplemented multi-parent generated
case) and Err returns are all Option.none; recursion depth is bounded by
fuel, with exhaustion also Option.none. -/

/-- A traced column set: one Option column index per output column. -/
abbrev Columns := List (Option Nat)

/-- One step of a provenance path: (node, columns). -/
abbrev PathEntry := Nat × Columns

/-- A provenance path, root first. -/
abbrev TracePath := List PathEntry

/-- Node kinds as the trace algorithm distinguishes them: base nodes end
a path; non-internal nodes pass columns through unchanged; internal
nodes resolve via parent_columns and may be joins. -/
inductive NodeKind
  | base
  | nonInternal
  | internal (isJoin : Bool) (parentColumns : Nat → Option (List (Nat × Option Nat)))

/-- The dataflow graph as the tracer sees it. -/
structure GraphModel where
  parentsOf : Nat → List Nat
  kindOf : Nat → NodeKind

/-- The on_join callback: may error (outer none), else picks one parent
to walk (inner some) or asks for all (inner none). -/
abbrev OnJoin := Nat → Columns → List Nat → Option (Option Nat)

/-- The all-None column vector vec![None; cols]. -/
def defaultCols (cols : Nat) : Columns := List.replicate cols Option.none

/-- The origins list: for each Some column (by index), the pairs
(column index, (ancestor, ancestor column)) its parent_columns yield;
a parent_columns error or an empty origins list aborts (Err / assert). -/
def originsGo (pc : Nat → Option (List (Nat × Option Nat))) :
    Nat → Columns → Option (List (Nat × (Nat × Option Nat)))
  | _, [] => some []
  | i, Option.none :: rest => originsGo pc (i + 1) rest
  | i, some c :: rest =>
    match pc c with
    | Option.none => Option.none
    | some origins =>
      if origins.isEmpty then Option.none
      else (originsGo pc (i + 1) rest).map (fun tail =>
        origins.map (fun o => (i, o)) ++ tail)

/-- First-appearance deduplication, determinizing HashMap key order. -/
def firstDedupGo (seen : List Nat) : List Nat → List Nat
  | [] => []
  | x :: rest =>
    if seen.contains x then firstDedupGo seen rest
    else x :: firstDedupGo (x :: seen) rest

/-- First-appearance deduplication of a list of ancestors. -/
def firstDedup (l : List Nat) : List Nat := firstDedupGo [] l

/-- The per-ancestor resolved column vector: start from vec![None; cols]
and set each origin belonging to this ancestor at its column index,
later origins overwriting earlier ones (the fold in trace). -/
def resolvedFor (ors : List (Nat × (Nat × Option Nat))) (cols : Nat) (a : Nat) :
    Columns :=
  ors.foldl (fun acc e => if e.2.1 = a then acc.set e.1 e.2.2 else acc)
    (defaultCols cols)

/-- The resolved vector for an ancestor if present among the keys, else
the all-None default (resolved.remove(..).unwrap_or(vec![None; cols])). -/
def resolvedOr (ors : List (Nat × (Nat × Option Nat))) (cols : Nat)
    (keys : List Nat) (a : Nat) : Columns :=
  if keys.contains a then resolvedFor ors cols a else defaultCols cols

/-- Option-valued mapM, written out for easy reasoning. -/
def mapMO {α β : Type} (f : α → Option β) : List α → Option (List β)
  | [] => some []
  | x :: xs => (f x).bind (fun y => (mapMO f xs).map (fun ys => y :: ys))

/-- Extend the path by each entry in turn, recursing on each extension and
concatenating the resulting path lists (the paths.extend loops). -/
def extendAll (recur : TracePath → Option (List TracePath)) (path : TracePath)
    (entries : List PathEntry) : Option (List TracePath) :=
  (mapMO (fun e => recur (path ++ [e])) entries).map List.flatten

/-- One step of trace (src/noria/server/src/controller/keys.rs lines
21-183), with the recursive call abstracted. -/
def traceStep (recur : TracePath → Option (List TracePath)) (g : GraphModel)
    (oj : OnJoin) (path : TracePath) : Option (List TracePath) :=
  match path.getLast? with
  | Option.none => Option.none
  | some (node, columns) =>
    let cols := columns.length
    let parents := g.parentsOf node
    if parents.isEmpty then Option.none
    else
      match g.kindOf node with
      | .base => some [path]
      | .nonInternal =>
        match parents with
        | [] => Option.none
        | p :: _ => recur (path ++ [(p, columns)])
      | .internal isJoin pc =>
        if columns.all (fun c => c.isNone) then
          if isJoin then
            match oj node (defaultCols cols) parents with
            | Option.none => Option.none
            | some (some parent) => recur (path ++ [(parent, defaultCols cols)])
            | some Option.none =>
              extendAll recur path (parents.map (fun p => (p, defaultCols cols)))
          else extendAll recur path (parents.map (fun p => (p, defaultCols cols)))
        else
          match originsGo pc 0 columns with
          | Option.none => Option.none
          | some ors =>
            let keys := firstDedup (ors.map (fun e => e.2.1))
            if keys.isEmpty then Option.none
            else if keys.contains node then
              if !((resolvedFor ors cols node).all (fun c => c.isNone)) then
                Option.none
              else
                match parents with
                | [p] =>
                  recur (path ++
                    [(p, resolvedOr ors cols (keys.filter (fun k => !(k == node))) p)])
                | _ => Option.none
            else
              match parents with
              | [p] =>
                if keys.contains p then recur (path ++ [(p, resolvedFor ors cols p)])
                else Option.none
              | _ =>
                if !isJoin then
                  if parents.length ≠ keys.length then Option.none
                  else extendAll recur path (keys.map (fun k => (k, resolvedFor ors cols k)))
                else
                  match oj node columns parents with
                  | Option.none => Option.none
                  | some Option.none =>
                    extendAll recur path
                      (parents.map (fun p => (p, resolvedOr ors cols keys p)))
                  | some (some parent) =>
                    recur (path ++ [(parent, resolvedOr ors cols keys parent)])

/-- Embedding of fn trace, with fuel bounding the recursion depth. -/
def trace (g : GraphModel) (oj : OnJoin) : Nat → TracePath → Option (List TracePath)
  | 0, _ => Option.none
  | fuel + 1, path => traceStep (fun p => trace g oj fuel p) g oj path

/-- Embedding of provenance_of (keys.rs lines 8-19): start from the node
with every traced column wrapped in Some. -/
def provenanceOf (g : GraphModel) (oj : OnJoin) (fuel : Nat) (node : Nat)
    (columns : List Nat) : Option (List TracePath) :=
  trace g oj fuel [(node, columns.map (fun v => some v))]

theorem get?_some_lt {α : Type} {l : List α} {n : Nat} {a : α}
    (h : l.get? n = some a) : n < l.length := by
  by_contra hle
  rw [not_lt] at hle
  rw [List.get?_eq_none.mpr hle] at h
  simp at h

theorem defaultCols_get? {cols coli : Nat} (h : coli < cols) :
    (defaultCols cols).get? coli = some Option.none := by
  unfold defaultCols
  induction cols generalizing coli with
  | zero => omega
  | succ n ih =>
    cases coli with
    | zero => rfl
    | succ i => simpa [List.replicate] using ih (by omega)

theorem mapMO_mem {α β : Type} (f : α → Option β) :
    ∀ (xs : List α) (ys : List β), mapMO f xs = some ys →
    ∀ y ∈ ys, ∃ x ∈ xs, f x = some y := by
  intro xs
  induction xs with
  | nil =>
    intro ys h y hy
    simp only [mapMO, Option.some.injEq] at h
    subst h
    simp at hy
  | cons x rest ih =>
    intro ys h y hy
    simp only [mapMO] at h
    cases hfx : f x with
    | none => rw [hfx] at h; simp at h
    | some y0 =>
      rw [hfx] at h
      simp only [Option.some_bind] at h
      cases hrest : mapMO f rest with
      | none => rw [hrest] at h; simp at h
      | some ys0 =>
        rw [hrest] at h
        simp only [Option.map_some', Option.some.injEq] at h
        subst h
        rcases List.mem_cons.mp hy with rfl | hmem
        · exact ⟨x, List.mem_cons_self x rest, hfx⟩
        · obtain ⟨x1, hx1, hfx1⟩ := ih ys0 hrest y hmem
          exact ⟨x1, List.mem_cons_of_mem _ hx1, hfx1⟩

theorem originsGo_entries (pc : Nat → Option (List (Nat × Option Nat))) :
    ∀ (cs : Columns) (i : Nat) (ors : List (Nat × (Nat × Option Nat))),
    originsGo pc i cs = some ors →
    ∀ e ∈ ors, ∃ j c0 os, cs.get? j = some (some c0) ∧ e.1 = i + j ∧
      pc c0 = some os ∧ e.2 ∈ os := by
  intro cs
  induction cs with
  | nil =>
    intro i ors h e he
    simp only [originsGo, Option.some.injEq] at h
    subst h
    simp at he
  | cons c0 rest ih =>
    intro i ors h e he
    cases c0 with
    | none =>
      simp only [originsGo] at h
      obtain ⟨j, c1, os, hj, hij, hpc, hos⟩ := ih (i + 1) ors h e he
      exact ⟨j + 1, c1, os, by simpa using hj, by omega, hpc, hos⟩
    | some c =>
      simp only [originsGo] at h
      cases hpc : pc c with
      | none => rw [hpc] at h; simp at h
      | some origins =>
        rw [hpc] at h
        simp only [] at h
        by_cases hemp : origins.isEmpty
        · rw [if_pos hemp] at h; simp at h
        · rw [if_neg hemp] at h
          cases htail : originsGo pc (i + 1) rest with
          | none => rw [htail] at h; simp at h
          | some tail =>
            rw [htail] at h
            simp only [Option.map_some', Option.some.injEq] at h
            subst h
            rcases List.mem_append.mp he with hm | hm
            · obtain ⟨o, ho, heq⟩ := List.mem_map.mp hm
              refine ⟨0, c, origins, rfl, ?_, hpc, ?_⟩
              · rw [← heq]; omega
              · rw [← heq]; exact ho
            · obtain ⟨j, c1, os, hj, hij, hpc1, hos⟩ := ih (i + 1) tail htail e hm
              exact ⟨j + 1, c1, os, by simpa using hj, by omega, hpc1, hos⟩

theorem originsGo_complete (pc : Nat → Option (List (Nat × Option Nat))) :
    ∀ (cs : Columns) (i : Nat) (ors : List (Nat × (Nat × Option Nat)))
      (j : Nat) (c0 : Nat) (os : List (Nat × Option Nat)) (o : Nat × Option Nat),
    originsGo pc i cs = some ors →
    cs.get? j = some (some c0) → pc c0 = some os → o ∈ os →
    (i + j, o) ∈ ors := by
  intro cs
  induction cs with
  | nil =>
    intro i ors j c0 os o h hj
    simp at hj
  | cons chead rest ih =>
    intro i ors j c0 os o h hj hpc ho
    cases chead with
    | none =>
      simp only [originsGo] at h
      cases j with
      | zero => simp at hj
      | succ j0 =>
        have := ih (i + 1) ors j0 c0 os o h (by simpa using hj) hpc ho
        simpa [Nat.add_assoc, Nat.add_comm 1 j0] using this
    | some c =>
      simp only [originsGo] at h
      cases hpc0 : pc c with
      | none => rw [hpc0] at h; simp at h
      | some origins =>
        rw [hpc0] at h
        simp only [] at h
        by_cases hemp : origins.isEmpty
        · rw [if_pos hemp] at h; simp at h
        · rw [if_neg hemp] at h
          cases htail : originsGo pc (i + 1) rest with
          | none => rw [htail] at h; simp at h
          | some tail =>
            rw [htail] at h
            simp only [Option.map_some', Option.some.injEq] at h
            subst h
            cases j with
            | zero =>
              simp only [List.get?] at hj
              have hc : c = c0 := by
                simpa using hj
              subst hc
              rw [hpc0] at hpc
              simp only [Option.some.injEq] at hpc
              subst hpc
              apply List.mem_append_left
              exact List.mem_map.mpr ⟨o, ho, by simp⟩
            | succ j0 =>
              have := ih (i + 1) tail j0 c0 os o htail (by simpa using hj) hpc ho
              apply List.mem_append_right
              simpa [Nat.add_assoc, Nat.add_comm 1 j0] using this

theorem firstDedupGo_mem (x : Nat) :
    ∀ (l seen : List Nat), x ∈ l → ¬ x ∈ seen → x ∈ firstDedupGo seen l := by
  intro l
  induction l with
  | nil => intro seen hx; simp at hx
  | cons y rest ih =>
    intro seen hx hseen
    simp only [firstDedupGo]
    rcases List.mem_cons.mp hx with rfl | hmem
    · rw [if_neg (by simpa using hseen)]
      exact List.mem_cons_self _ _
    · by_cases hy : seen.contains y
      · rw [if_pos hy]
        exact ih seen hmem hseen
      · rw [if_neg hy]
        by_cases hxy : x = y
        · subst hxy; exact List.mem_cons_self _ _
        · exact List.mem_cons_of_mem _ (ih (y :: seen) hmem (by
            intro hc
            rcases List.mem_cons.mp hc with h1 | h1
            · exact hxy h1
            · exact hseen h1))

theorem firstDedup_mem {x : Nat} {l : List Nat} (h : x ∈ l) : x ∈ firstDedup l :=
  firstDedupGo_mem x l [] h (by simp)

theorem resolvedFor_get_none {ors : List (Nat × (Nat × Option Nat))}
    {cols a coli : Nat} (hlt : coli < cols)
    (hcond : ∀ e ∈ ors, e.1 = coli → e.2.2 = Option.none) :
    (resolvedFor ors cols a).get? coli = some Option.none := by
  unfold resolvedFor
  have aux : ∀ (l : List (Nat × (Nat × Option Nat))) (acc : Columns),
      acc.get? coli = some Option.none →
      (∀ e ∈ l, e.1 = coli → e.2.2 = Option.none) →
      (l.foldl (fun acc e => if e.2.1 = a then acc.set e.1 e.2.2 else acc) acc).get? coli =
        some Option.none := by
    intro l
    induction l with
    | nil => intro acc hacc _; simpa using hacc
    | cons e rest ih =>
      intro acc hacc hc
      simp only [List.foldl_cons]
      apply ih
      · by_cases hea : e.2.1 = a
        · rw [if_pos hea]
          by_cases hei : e.1 = coli
          · have hnone := hc e (List.mem_cons_self e rest) hei
            rw [hei, hnone]
            have hlen : coli < acc.length := get?_some_lt hacc
            simp [List.get?_eq_getElem?, List.getElem?_set_eq_of_lt _ hlen]
          · rw [List.get?_eq_getElem?, List.getElem?_set_ne hei,
              ← List.get?_eq_getElem?]
            exact hacc
        · rw [if_neg hea]
          exact hacc
      · intro e2 h2 hi
        exact hc e2 (List.mem_cons_of_mem _ h2) hi
  exact aux ors (defaultCols cols) (defaultCols_get? hlt) hcond

theorem resolvedOr_get_none {ors : List (Nat × (Nat × Option Nat))}
    {cols coli : Nat} {keys : List Nat} {a : Nat} (hlt : coli < cols)
    (hcond : ∀ e ∈ ors, e.1 = coli → e.2.2 = Option.none) :
    (resolvedOr ors cols keys a).get? coli = some Option.none := by
  unfold resolvedOr
  by_cases hk : keys.contains a
  · rw [if_pos hk]
    exact resolvedFor_get_none hlt hcond
  · rw [if_neg hk]
    exact defaultCols_get? hlt

/-- The invariant propagated up replay paths: if the last entry of the
query path has None at position coli, every path the tracer returns
extends the query path only with entries that also have None at coli. -/
def NoneInv (coli : Nat) (recur : TracePath → Option (List TracePath)) : Prop :=
  ∀ (path : TracePath) (entry : PathEntry) (pss : List TracePath),
    recur path = some pss →
    path.getLast? = some entry →
    entry.2.get? coli = some Option.none →
    ∀ ps ∈ pss, ∃ rest, ps = path ++ rest ∧
      ∀ e ∈ rest, e.2.get? coli = some Option.none

theorem noneInv_push {coli : Nat} {recur : TracePath → Option (List TracePath)}
    (hrec : NoneInv coli recur) (path : TracePath) (enew : PathEntry)
    (pss : List TracePath) (h : recur (path ++ [enew]) = some pss)
    (hnew : enew.2.get? coli = some Option.none) :
    ∀ ps ∈ pss, ∃ rest, ps = path ++ rest ∧
      ∀ e ∈ rest, e.2.get? coli = some Option.none := by
  intro ps hps
  obtain ⟨rest, hrest, hall⟩ :=
    hrec (path ++ [enew]) enew pss h (List.getLast?_concat path) hnew ps hps
  refine ⟨enew :: rest, ?_, ?_⟩
  · rw [hrest, List.append_assoc, List.singleton_append]
  · intro e he
    rcases List.mem_cons.mp he with rfl | hmem
    · exact hnew
    · exact hall e hmem

theorem noneInv_extendAll {coli : Nat} {recur : TracePath → Option (List TracePath)}
    (hrec : NoneInv coli recur) (path : TracePath) (entries : List PathEntry)
    (pss : List TracePath) (h : extendAll recur path entries = some pss)
    (hentries : ∀ e ∈ entries, e.2.get? coli = some Option.none) :
    ∀ ps ∈ pss, ∃ rest, ps = path ++ rest ∧
      ∀ e ∈ rest, e.2.get? coli = some Option.none := by
  intro ps hps
  unfold extendAll at h
  cases hm : mapMO (fun e => recur (path ++ [e])) entries with
  | none => rw [hm] at h; simp at h
  | some rss =>
    rw [hm] at h
    simp only [Option.map_some', Option.some.injEq] at h
    subst h
    rw [List.mem_flatten] at hps
    obtain ⟨l, hl, hpl⟩ := hps
    obtain ⟨x, hx, hfx⟩ := mapMO_mem _ entries rss hm l hl
    exact noneInv_push hrec path x l hfx (hentries x hx) ps hpl

theorem traceStep_noneInv (g : GraphModel) (oj : OnJoin) (coli : Nat)
    (recur : TracePath → Option (List TracePath)) (hrec : NoneInv coli recur) :
    NoneInv coli (fun p => traceStep recur g oj p) := by
  intro path entry pss h hlast hcol
  obtain ⟨node, columns⟩ := entry
  simp only at hcol h
  unfold traceStep at h
  rw [hlast] at h
  simp only [] at h
  have hlt : coli < columns.length := get?_some_lt hcol
  by_cases hpar : (g.parentsOf node).isEmpty
  · rw [if_pos hpar] at h; simp at h
  · rw [if_neg hpar] at h
    cases hk : g.kindOf node with
    | base =>
      rw [hk] at h
      simp only [Option.some.injEq] at h
      subst h
      intro ps hps
      rw [List.mem_singleton] at hps
      subst hps
      exact ⟨[], by simp, by simp⟩
    | nonInternal =>
      rw [hk] at h
      simp only [] at h
      cases hp : g.parentsOf node with
      | nil => rw [hp] at h; simp at h
      | cons p tl =>
        rw [hp] at h
        simp only [] at h
        exact noneInv_push hrec path (p, columns) pss h hcol
    | internal isJoin pc =>
      rw [hk] at h
      simp only [] at h
      by_cases hall : columns.all (fun c => c.isNone)
      · rw [if_pos hall] at h
        have hdef : ∀ p : Nat,
            ((p, defaultCols columns.length) : PathEntry).2.get? coli =
              some Option.none := by
          intro p
          exact defaultCols_get? hlt
        by_cases hj : isJoin
        · rw [if_pos hj] at h
          cases hoj : oj node (defaultCols columns.length) (g.parentsOf node) with
          | none => rw [hoj] at h; simp at h
          | some sel =>
            rw [hoj] at h
            cases sel with
            | some parent =>
              simp only [] at h
              exact noneInv_push hrec path (parent, defaultCols columns.length) pss h
                (hdef parent)
            | none =>
              simp only [] at h
              refine noneInv_extendAll hrec path _ pss h ?_
              intro e he
              obtain ⟨p, _, rfl⟩ := List.mem_map.mp he
              exact hdef p
        · rw [if_neg hj] at h
          refine noneInv_extendAll hrec path _ pss h ?_
          intro e he
          obtain ⟨p, _, rfl⟩ := List.mem_map.mp he
          exact hdef p
      · rw [if_neg hall] at h
        cases ho : originsGo pc 0 columns with
        | none => rw [ho] at h; simp at h
        | some ors =>
          rw [ho] at h
          simp only [] at h
          have hcond : ∀ e ∈ ors, e.1 = coli → e.2.2 = Option.none := by
            intro e he hi
            obtain ⟨j, c0, os, hj, hij, _, _⟩ :=
              originsGo_entries pc columns 0 ors ho e he
            have : j = coli := by omega
            subst this
            rw [hcol] at hj
            simp at hj
          by_cases hke : (firstDedup (ors.map (fun e => e.2.1))).isEmpty
          · rw [if_pos hke] at h; simp at h
          · rw [if_neg hke] at h
            by_cases hkn : (firstDedup (ors.map (fun e => e.2.1))).contains node
            · rw [if_pos hkn] at h
              by_cases hgen :
                  !((resolvedFor ors columns.length node).all (fun c => c.isNone))
              · rw [if_pos hgen] at h; simp at h
              · rw [if_neg hgen] at h
                cases hp : g.parentsOf node with
                | nil => rw [hp] at h; simp at h
                | cons p tl =>
                  cases tl with
                  | nil =>
                    rw [hp] at h
                    simp only [] at h
                    exact noneInv_push hrec path _ pss h
                      (resolvedOr_get_none hlt hcond)
                  | cons p2 tl2 => rw [hp] at h; simp at h
            · rw [if_neg hkn] at h
              cases hp : g.parentsOf node with
              | nil => rw [hp] at hpar; simp at hpar
              | cons p tl =>
                cases tl with
                | nil =>
                  rw [hp] at h
                  simp only [] at h
                  by_cases hkp : (firstDedup (ors.map (fun e => e.2.1))).contains p
                  · rw [if_pos hkp] at h
                    exact noneInv_push hrec path _ pss h
                      (resolvedFor_get_none hlt hcond)
                  · rw [if_neg hkp] at h; simp at h
                | cons p2 tl2 =>
                  rw [hp] at h
                  simp only [] at h
                  by_cases hj : isJoin
                  · simp only [hj, Bool.not_true] at h
                    rw [if_neg Bool.false_ne_true] at h
                    cases hoj : oj node columns (p :: p2 :: tl2) with
                    | none => rw [hoj] at h; simp at h
                    | some sel =>
                      rw [hoj] at h
                      cases sel with
                      | some parent =>
                        simp only [] at h
                        exact noneInv_push hrec path _ pss h
                          (resolvedOr_get_none hlt hcond)
                      | none =>
                        simp only [] at h
                        refine noneInv_extendAll hrec path _ pss h ?_
                        intro e he
                        obtain ⟨q, _, rfl⟩ := List.mem_map.mp he
                        exact resolvedOr_get_none hlt hcond
                  · simp only [hj, Bool.not_false] at h
                    rw [if_pos trivial] at h
                    by_cases hlen :
                        (p :: p2 :: tl2).length ≠
                          (firstDedup (ors.map (fun e => e.2.1))).length
                    · rw [if_pos hlen] at h; simp at h
                    · rw [if_neg hlen] at h
                      refine noneInv_extendAll hrec path _ pss h ?_
                      intro e he
                      obtain ⟨k, _, rfl⟩ := List.mem_map.mp he
                      exact resolvedFor_get_none hlt hcond

/-- The trace invariant at every fuel. -/
theorem trace_noneInv (g : GraphModel) (oj : OnJoin) (coli : Nat) :
    ∀ fuel, NoneInv coli (trace g oj fuel) := by
  intro fuel
  induction fuel with
  | zero => intro path entry pss h; simp [trace] at h
  | succ fuel ih =>
    intro path entry pss h hlast hcol
    have h2 : traceStep (fun p => trace g oj fuel p) g oj path = some pss := h
    exact traceStep_noneInv g oj coli _ ih path entry pss h2 hlast hcol

/-- C7: when the traced column set contains a generated column — one whose
parent_columns resolve to None on the node itself — provenance tracing
yields, on every returned path, None for that column at every ancestor
entry (every entry after the queried node), all the way back to the base
nodes. -/
theorem provenance_generated_resolves_none
    (g : GraphModel) (oj : OnJoin) (fuel : Nat) (node : Nat)
    (columns : List Nat) (coli : Nat) (c : Nat) (pss : List TracePath)
    (isJoin : Bool) (pc : Nat → Option (List (Nat × Option Nat)))
    (hk : g.kindOf node = .internal isJoin pc)
    (hcol : columns.get? coli = some c)
    (hgen : pc c = some [(node, Option.none)])
    (h : provenanceOf g oj fuel node columns = some pss) :
    ∀ ps ∈ pss, ∃ rest, ps = [(node, columns.map (fun v => some v))] ++ rest ∧
      ∀ e ∈ rest, e.2.get? coli = some Option.none := by
  unfold provenanceOf at h
  cases fuel with
  | zero => simp [trace] at h
  | succ fuel =>
    have h1 : traceStep (fun p => trace g oj fuel p) g oj
        [(node, columns.map (fun v => some v))] = some pss := h
    unfold traceStep at h1
    have hl : ([(node, columns.map (fun v => some v))] : TracePath).getLast? =
        some (node, columns.map (fun v => some v)) := rfl
    rw [hl] at h1
    simp only [] at h1
    have hmc : (columns.map (fun v => some v)).get? coli = some (some c) := by
      rw [List.get?_map, hcol]
      rfl
    have hlt : coli < (columns.map (fun v => some v)).length := get?_some_lt hmc
    by_cases hpar : (g.parentsOf node).isEmpty
    · rw [if_pos hpar] at h1; simp at h1
    · rw [if_neg hpar] at h1
      rw [hk] at h1
      simp only [] at h1
      have hall : ((columns.map (fun v => some v)).all (fun c0 => c0.isNone)) = false := by
        refine List.all_eq_false.mpr ⟨some c, List.get?_mem hmc, by simp⟩
      rw [hall, if_neg Bool.false_ne_true] at h1
      cases ho : originsGo pc 0 (columns.map (fun v => some v)) with
      | none => rw [ho] at h1; simp at h1
      | some ors =>
        rw [ho] at h1
        simp only [] at h1
        have hmem0 : ((0 + coli : Nat), ((node, Option.none) : Nat × Option Nat)) ∈ ors :=
          originsGo_complete pc (columns.map (fun v => some v)) 0 ors coli c
            [(node, Option.none)] (node, Option.none) ho hmc hgen (by simp)
        have hnode : node ∈ firstDedup (ors.map (fun e => e.2.1)) :=
          firstDedup_mem (List.mem_map.mpr ⟨(0 + coli, (node, Option.none)), hmem0, rfl⟩)
        have hkeyne : (firstDedup (ors.map (fun e => e.2.1))).isEmpty = false := by
          cases hfd : firstDedup (ors.map (fun e => e.2.1)) with
          | nil => rw [hfd] at hnode; simp at hnode
          | cons k ks => simp [List.isEmpty]
        rw [hkeyne, if_neg Bool.false_ne_true] at h1
        have hcont : (firstDedup (ors.map (fun e => e.2.1))).contains node = true := by
          simpa using hnode
        rw [hcont, if_pos rfl] at h1
        have hcond : ∀ e ∈ ors, e.1 = coli → e.2.2 = Option.none := by
          intro e he hi
          obtain ⟨j, c0, os, hj, hij, hpc0, hos⟩ :=
            originsGo_entries pc (columns.map (fun v => some v)) 0 ors ho e he
          have hjc : j = coli := by omega
          subst hjc
          rw [hmc] at hj
          have hcc : c = c0 := by simpa using hj
          subst hcc
          rw [hgen] at hpc0
          simp only [Option.some.injEq] at hpc0
          subst hpc0
          simp only [List.mem_singleton] at hos
          rw [hos]
        by_cases hga :
            !((resolvedFor ors (columns.map (fun v => some v)).length node).all
              (fun c0 => c0.isNone))
        · rw [if_pos hga] at h1; simp at h1
        · rw [if_neg hga] at h1
          cases hp : g.parentsOf node with
          | nil => rw [hp] at hpar; simp at hpar
          | cons p tl =>
            cases tl with
            | cons p2 tl2 => rw [hp] at h1; simp at h1
            | nil =>
              rw [hp] at h1
              simp only [] at h1
              exact noneInv_push (trace_noneInv g oj coli fuel)
                [(node, columns.map (fun v => some v))] _ pss h1
                (resolvedOr_get_none hlt hcond)

/-- Concrete graph for the C7 witness: node 2 is an internal projection
whose column 1 is generated (a literal), with base parent 1; node 1 has
the source node 0 as its parent. -/
def c7pc : Nat → Option (List (Nat × Option Nat)) :=
  fun c => if c = 1 then some [(2, Option.none)] else some [(1, some c)]

/-- Concrete graph for the C7 witness. -/
def c7Graph : GraphModel :=
  { parentsOf := fun n => if n = 2 then [1] else if n = 1 then [0] else [],
    kindOf := fun n => if n = 2 then .internal false c7pc else .base }

/-- An on_join callback that always asks for all parents. -/
def c7oj : OnJoin := fun _ _ _ => some Option.none

/-- Witness for C7: tracing the generated column 1 (together with the
ordinary column 0) of node 2 yields a single path whose only ancestor
entry resolves column 1 to None. -/
theorem provenance_generated_resolves_none_witness :
    c7Graph.kindOf 2 = .internal false c7pc ∧
    ([0, 1] : List Nat).get? 1 = some 1 ∧
    c7pc 1 = some [(2, Option.none)] ∧
    provenanceOf c7Graph c7oj 5 2 [0, 1] =
      some [[(2, [some 0, some 1]), (1, [some 0, Option.none])]] ∧
    (∀ ps ∈ [[((2 : Nat), [some 0, some 1]),
              ((1 : Nat), [some 0, Option.none])]],
      ∃ rest, ps = [((2 : Nat), ([0, 1] : List Nat).map (fun v => some v))] ++ rest ∧
        ∀ e ∈ rest, e.2.get? 1 = some Option.none) :=
  ⟨rfl, rfl, rfl, by decide,
   provenance_generated_resolves_none c7Graph c7oj 5 2 [0, 1] 1 1 _ false c7pc
     rfl rfl rfl (by decide)⟩

end Readyset
